import Mathlib

/-!
Verification of the AZURE-BLOB-CRAWLER ingestion core.

Python strings are modelled as `List Char`; machine integers are `Nat`
(Python integers are unbounded, so no modular wrapping is needed); code
that may raise an exception returns `Option`/`Except`.  The pluggable
tokenizer (the external `tiktoken` collaborator) is modelled as a pair of
fallible functions `encode`/`decode`; `none` models a raised exception.
-/

namespace BlobCrawler

/-- Python strings are modelled as lists of characters. -/
abbrev Str := List Char

/-- Whitespace test backing Python `str.split()` / `str.strip()`. -/
def isWS (c : Char) : Bool := c.isWhitespace

/-- Python `str.strip()`: drop leading and trailing whitespace. -/
def trim (s : Str) : Str := ((s.dropWhile isWS).reverse.dropWhile isWS).reverse

/-- Scanner behind `words`: `acc` is the current word reversed. -/
def wordsAux : Str → Str → List Str
  | [], acc => if acc = [] then [] else [acc.reverse]
  | c :: cs, acc =>
    if isWS c then
      if acc = [] then wordsAux cs [] else acc.reverse :: wordsAux cs []
    else wordsAux cs (c :: acc)

/-- Python `str.split()` with no argument: maximal runs of non-whitespace
characters, empty pieces dropped. -/
def words (s : Str) : List Str := wordsAux s []

/-- Python `" ".join(ws)`. -/
def joinWords : List Str → Str
  | [] => []
  | [w] => w
  | w :: ws => w ++ ' ' :: joinWords ws

/-- The external tokenizer collaborator (`tiktoken`); `none` models a raised
exception from `encode`/`decode`. -/
structure Tokenizer where
  encode : Str → Option (List Str)
  decode : List Str → Option Str

/-- `TokenAwareChunker.count_tokens` (chunking.py lines 42-56): length of the
encoding, falling back to `len(text) // EMBEDDING_FALLBACK_TOKEN_RATIO` when
the tokenizer raises. -/
def count_tokens (tk : Tokenizer) (ratio : Nat) (text : Str) : Nat :=
  match tk.encode text with
  | some ts => ts.length
  | none => text.length / ratio

/-- Characters matched by the sentence-boundary class `[.!?]`. -/
def isSentEnd (c : Char) : Bool := c = '.' || c = '!' || c = '?'

/-- Scanner for `re.split(r'[.!?]+(?:\s+|$)', text)`: a maximal run of
sentence-ending punctuation followed by whitespace or the end of the
string splits the text; a run followed by anything else is ordinary text.
`pend` holds a pending punctuation run (reversed) whose classification
awaits the next character; `acc` holds the current piece reversed.  At a
boundary only the witnessing whitespace character is consumed; the rest of
the matched whitespace run is left at the head of the next piece, where
the `strip()` applied by `_split_into_sentences` removes it, so the
composite `split_into_sentences` agrees with the source. -/
def splitSentencesAux : Str → Str → Str → List Str
  | [], pend, acc => if pend = [] then [acc.reverse] else [acc.reverse, []]
  | c :: cs, pend, acc =>
    if isSentEnd c then splitSentencesAux cs (c :: pend) acc
    else if pend = [] then splitSentencesAux cs [] (c :: acc)
    else if isWS c then acc.reverse :: splitSentencesAux cs [] []
    else splitSentencesAux cs [] (c :: (pend ++ acc))

/-- `TokenAwareChunker._split_into_sentences` (chunking.py lines 176-192). -/
def split_into_sentences (text : Str) : List Str :=
  ((splitSentencesAux text [] []).map trim).filter (fun s => !s.isEmpty)

/-- Fuel-driven slicing loop; with `m ≥ 1` and fuel `≥ t.length` it takes
successive slices of `m` characters until the text is exhausted. -/
def chunksOfCharsGo (m : Nat) : Nat → Str → List Str
  | _, [] => []
  | 0, _ => []
  | fuel + 1, t => if m = 0 then [] else t.take m :: chunksOfCharsGo m fuel (t.drop m)

/-- Slices `text[i:i+m]` for `i in range(0, len(text), m)`.  Python raises
`ValueError` on step `m = 0`; the code only calls this with `m ≥ 1`. -/
def chunksOfChars (t : Str) (m : Nat) : List Str :=
  chunksOfCharsGo m t.length t

/-- `TokenAwareChunker._split_by_characters` (chunking.py lines 227-245). -/
def split_by_characters (ratio : Nat) (text : Str) (max_tokens : Nat) : List Str :=
  chunksOfChars text (max_tokens * ratio)

/-- One iteration of the word loop in `_split_long_sentence`
(chunking.py lines 209-220); state is (emitted chunks, running chunk). -/
def sls_step (tk : Tokenizer) (ratio max_tokens : Nat)
    (st : List Str × Str) (w : Str) : List Str × Str :=
  let test := if st.2 ≠ [] then st.2 ++ ' ' :: w else w
  if count_tokens tk ratio test > max_tokens then
    if st.2 ≠ [] then (st.1 ++ [st.2], w)
    else (st.1 ++ split_by_characters ratio w max_tokens, [])
  else (st.1, test)

/-- `TokenAwareChunker._split_long_sentence` (chunking.py lines 194-225). -/
def split_long_sentence (tk : Tokenizer) (ratio : Nat) (sentence : Str)
    (max_tokens : Nat) : List Str :=
  let st := (words sentence).foldl (sls_step tk ratio max_tokens) ([], [])
  if st.2 ≠ [] then st.1 ++ [st.2] else st.1

/-- The descending loop of `_get_overlap_text` (chunking.py lines 264-269):
`j + 1` remaining iterations means index `j` is examined next; the best
accepted suffix join so far is `ov`. -/
def overlapGo (tk : Tokenizer) (ratio overlap_tokens : Nat) (ws : List Str) :
    Nat → Str → Str
  | 0, ov => ov
  | j + 1, ov =>
    let test := joinWords (ws.drop j)
    if count_tokens tk ratio test > overlap_tokens then ov
    else overlapGo tk ratio overlap_tokens ws j test

/-- `TokenAwareChunker._get_overlap_text` (chunking.py lines 247-271). -/
def get_overlap_text (tk : Tokenizer) (ratio : Nat) (text : Str)
    (overlap_tokens : Nat) : Str :=
  if overlap_tokens = 0 then []
  else overlapGo tk ratio overlap_tokens (words text) (words text).length []

/-- State of the sentence loop in `chunk_text`: emitted chunks, running
chunk, and the incrementally tracked `current_tokens`. -/
structure CTState where
  chunks : List Str
  cur : Str
  curT : Nat

/-- `if current_chunk.strip(): chunks.append(current_chunk.strip())`. -/
def ct_flush (st : CTState) : List Str :=
  if trim st.cur ≠ [] then st.chunks ++ [trim st.cur] else st.chunks

/-- One iteration of the sentence loop in `chunk_text`
(chunking.py lines 84-115). -/
def ct_step (tk : Tokenizer) (ratio max_tokens overlap_tokens : Nat)
    (st : CTState) (s : Str) : CTState :=
  let sT := count_tokens tk ratio s
  if sT > max_tokens then
    let base := ct_flush st
    let scs := split_long_sentence tk ratio s max_tokens
    let cur2 := scs.getLast?.getD []
    ⟨base ++ scs.dropLast, cur2, count_tokens tk ratio cur2⟩
  else if st.curT + sT > max_tokens then
    let base := ct_flush st
    let ovt := get_overlap_text tk ratio st.cur overlap_tokens
    let cur2 := ovt ++ ' ' :: s
    ⟨base, cur2, count_tokens tk ratio cur2⟩
  else
    ⟨st.chunks, if st.cur ≠ [] then st.cur ++ ' ' :: s else s, st.curT + sT⟩

/-- `TokenAwareChunker.chunk_text` (chunking.py lines 58-121). -/
def chunk_text (tk : Tokenizer) (ratio : Nat) (text : Str)
    (max_tokens overlap_tokens : Nat) : List Str :=
  if trim text = [] then []
  else if count_tokens tk ratio text ≤ max_tokens then [text]
  else
    ct_flush ((split_into_sentences text).foldl
      (ct_step tk ratio max_tokens overlap_tokens) ⟨[], [], 0⟩)

/-- Fuel-driven scanner behind `replaceList`; the fuel bounds the number
of scanning steps, each of which consumes at least one character. -/
def replaceGo (pat rep : Str) : Nat → Str → Str
  | 0, t => t
  | fuel + 1, t =>
    match t with
    | [] => []
    | c :: cs =>
      if pat ≠ [] ∧ pat.isPrefixOf (c :: cs) then
        rep ++ replaceGo pat rep fuel ((c :: cs).drop pat.length)
      else c :: replaceGo pat rep fuel cs

/-- Python `str.replace(pat, rep)`: replace all non-overlapping occurrences
left to right (identity when `pat` is empty and `rep` is empty, the only
way the code calls it with an empty pattern). -/
def replaceList (pat rep t : Str) : Str := replaceGo pat rep t.length t

/-- State of the page loop in `chunk_pages`. -/
structure CPState where
  chunks : List Str
  cur : Str
  curT : Nat

/-- One iteration of the page loop in `chunk_pages`
(chunking.py lines 142-168).  `ovDefault` is the module-level
`OVERLAP_TOKENS` default picked up by the inner `chunk_text` call. -/
def cp_step (tk : Tokenizer) (ratio max_tokens ovDefault : Nat)
    (st : CPState) (page : Str) : CPState :=
  let pT := count_tokens tk ratio page
  let st1 : CPState :=
    if st.cur ≠ [] ∧ st.curT + pT > max_tokens then ⟨st.chunks ++ [trim st.cur], page, pT⟩
    else if st.cur = [] then ⟨st.chunks, page, pT⟩
    else ⟨st.chunks, st.cur ++ '\n' :: '\n' :: page, st.curT + pT⟩
  if pT > max_tokens then
    let base := if st1.cur ≠ page then st1.chunks ++ [trim (replaceList page [] st1.cur)]
                else st1.chunks
    let pcs := chunk_text tk ratio page max_tokens ovDefault
    let cur2 := pcs.getLast?.getD []
    ⟨base ++ pcs.dropLast, cur2, count_tokens tk ratio cur2⟩
  else st1

/-- `TokenAwareChunker.chunk_pages` (chunking.py lines 123-174). -/
def chunk_pages (tk : Tokenizer) (ratio : Nat) (pages : List Str)
    (max_tokens ovDefault : Nat) : List Str :=
  if pages = [] then []
  else
    let st := pages.foldl (cp_step tk ratio max_tokens ovDefault) ⟨[], [], 0⟩
    if trim st.cur ≠ [] then st.chunks ++ [trim st.cur] else st.chunks

/-- Word-count tokenizer: a concrete, never-failing instance whose tokens
are exactly the whitespace-separated words.  Used to instantiate the
chunker at concrete inputs. -/
def wordTok : Tokenizer where
  encode s := some (words s)
  decode ts := some (joinWords ts)

/-! ### Retry decorator (`src/ms/shared/utils/retry.py`) -/

/-- Outcome of one invocation of the wrapped operation: either a returned
value or a raised exception classified by `_is_rate_limit_error`. -/
inductive Att (α ε : Type) where
  | ok (v : α)
  | err (rateLimited : Bool) (e : ε)

/-- How a run of the retry wrapper ends. -/
inductive ROut (α ε : Type) where
  | ok (v : α)
  | raised (e : ε)
  | runtimeError
  | outOfTrace
deriving DecidableEq

/-- Observable summary of one run of the retry wrapper: final outcome,
final attempt counter, number of calls whose outcome was not rate-limited,
number of rate-limit sleeps, and number of fixed-delay sleeps. -/
structure RunRes (α ε : Type) where
  out : ROut α ε
  attempts : Nat
  nonRLCalls : Nat
  rlSleeps : Nat
  delaySleeps : Nat
deriving DecidableEq

/-- The `while attempt < max_retries` loop shared by `async_wrapper` and
`sync_wrapper` (retry.py lines 110-176), run against a finite trace of
invocation outcomes.  A rate-limited failure sleeps and retries without
touching `attempt`; any other failure increments `attempt`, sleeping the
fixed delay if attempts remain and re-raising otherwise.  `outOfTrace`
means the supplied trace ended while the loop would have continued;
`runtimeError` is the trailing `raise RuntimeError` after the loop. -/
def retryRun (maxR : Nat) : Nat → List (Att α ε) → RunRes α ε
  | attempt, [] =>
    if attempt < maxR then ⟨.outOfTrace, attempt, 0, 0, 0⟩
    else ⟨.runtimeError, attempt, 0, 0, 0⟩
  | attempt, o :: rest =>
    if attempt < maxR then
      match o with
      | .ok v => ⟨.ok v, attempt, 1, 0, 0⟩
      | .err true _ =>
        let r := retryRun maxR attempt rest
        ⟨r.out, r.attempts, r.nonRLCalls, r.rlSleeps + 1, r.delaySleeps⟩
      | .err false e =>
        if attempt + 1 < maxR then
          let r := retryRun maxR (attempt + 1) rest
          ⟨r.out, r.attempts, r.nonRLCalls + 1, r.rlSleeps, r.delaySleeps + 1⟩
        else ⟨.raised e, attempt + 1, 1, 0, 0⟩
    else ⟨.runtimeError, attempt, 0, 0, 0⟩

/-! ### Embedding generation and index upload
(`src/shared/processing/document_processor.py`) -/

/-- Collaborators and configuration consumed by
`DocumentProcessor.generate_embeddings`.  `create` is the external
`DirectOpenAIClient.create_embeddings` call; `none` models a raised
exception. -/
structure EmbEnv where
  tk : Tokenizer
  ratio : Nat
  embMaxTokens : Nat
  dim : Nat
  clientPresent : Bool
  create : Str → Option (List ℚ)

/-- The body of the `try` block in `generate_embeddings`
(document_processor.py lines 185-200): client check, token-level
truncation when over the embedding ceiling, then the embedding call.
`none` models any raised exception. -/
def embedAttempt (E : EmbEnv) (text : Str) : Option (List ℚ) :=
  if E.clientPresent = false then none
  else if count_tokens E.tk E.ratio text > E.embMaxTokens then
    match E.tk.encode text with
    | none => none
    | some ts =>
      match E.tk.decode (ts.take E.embMaxTokens) with
      | none => none
      | some text2 => E.create text2
  else E.create text

/-- `DocumentProcessor.generate_embeddings` (document_processor.py lines
171-205): the `except` clause turns any failure into the zero vector of
the configured dimension. -/
def generate_embeddings (E : EmbEnv) (text : Str) : List ℚ :=
  (embedAttempt E text).getD (List.replicate E.dim 0)

/-- An Azure AI Search index document (the three payload fields of the
`chunk_doc` dict; the constant `@search.action` field is omitted). -/
structure IndexDoc where
  id : Str
  content : Str
  vector : List ℚ
deriving DecidableEq

/-- The id `f"{base_document['id']}_chunk_{chunk_index}"`. -/
def chunkDocId (baseId : Str) (i : Nat) : Str :=
  baseId ++ "_chunk_".toList ++ (Nat.repr i).toList

/-- The `asyncio.gather(..., return_exceptions=True)` result list in
`index_document_chunks` (lines 228-240): one entry per chunk, in input
order.  Entries are `Except` values mirroring `isinstance(result,
Exception)`; they are always `.ok` because `generate_embeddings` is total
(it swallows every failure). -/
def gatherResults (E : EmbEnv) (chunks : List Str) :
    List (Except Unit (Nat × Str × List ℚ)) :=
  chunks.enum.map (fun p => Except.ok (p.1, p.2, generate_embeddings E p.2))

/-- The `documents_to_index` accumulation loop (lines 242-262): failed
entries are skipped, successful ones become index documents. -/
def build_index_batch (E : EmbEnv) (baseId : Str) (chunks : List Str) :
    List IndexDoc :=
  (gatherResults E chunks).foldl
    (fun acc r =>
      match r with
      | .error _ => acc
      | .ok (i, c, emb) => acc ++ [⟨chunkDocId baseId i, c, emb⟩]) []

/-- Collaborators consumed by `index_document_chunks`: the search client
presence flag and the external `upload_documents` call (`none` models a
raised exception, `some b` its boolean result). -/
structure IdxEnv where
  E : EmbEnv
  searchPresent : Bool
  upload : List IndexDoc → Option Bool

/-- `DocumentProcessor.index_document_chunks` (document_processor.py lines
207-279): `.ok docs` is a successful attempt whose batch `docs` was
uploaded; `.error` models the exceptions the method raises. -/
def index_document_chunks (V : IdxEnv) (baseId : Str) (chunks : List Str) :
    Except Str (List IndexDoc) :=
  if V.searchPresent = false then .error "Search client not initialized".toList
  else
    let docs := build_index_batch V.E baseId chunks
    if docs = [] then
      .error "No documents to index - all embedding generations failed".toList
    else
      match V.upload docs with
      | none => .error "upload_documents raised".toList
      | some true => .ok docs
      | some false => .error "Failed to upload documents to search index".toList

/-! ### Service Bus message handler
(`src/shared/services/servicebus_processor.py`) -/

/-- JSON values as produced by `json.loads`.  Numbers and booleans are
omitted from the grammar; no claim exercises them. -/
inductive JVal where
  | str (s : Str)
  | arr (xs : List JVal)
  | obj (fields : List (Str × JVal))
  | null

/-- Python truthiness of a JSON value (`if not blob_name`). -/
def pyFalsy : JVal → Bool
  | .str s => s.isEmpty
  | .arr xs => xs.isEmpty
  | .obj fs => fs.isEmpty
  | .null => true

/-- Dictionary key lookup. -/
def jLookup (k : Str) (fs : List (Str × JVal)) : Option JVal :=
  (fs.find? (fun p => p.1 == k)).map (fun p => p.2)

/-- Python `pat in s` for strings: substring containment. -/
def containsStr (pat : Str) : Str → Bool
  | [] => pat.isEmpty
  | c :: cs => pat.isPrefixOf (c :: cs) || containsStr pat cs

/-- Python `key in xs` for a list: membership; only string elements can
equal the string key. -/
def arrHasStr (key : Str) (xs : List JVal) : Bool :=
  xs.any (fun v => match v with | .str s => s == key | _ => false)

/-- The URL parsing of lines 185-189 / 196-200:
`url.replace('https://', '').split('/')`; with at least three parts the
container is part 1 and the blob the `'/'`-join of the rest; otherwise the
sentinels are left untouched (`none`). -/
def parseBlobUrl (url : Str) : Option (Str × Str) :=
  let parts := (replaceList "https://".toList [] url).splitOn '/'
  if parts.length ≥ 3 then
    some (List.intercalate ['/'] (parts.drop 2), parts.getD 1 [])
  else none

/-- Evaluation of `'url' in d and d['url']`-style access on the value `d`
of a `data` field, mirroring Python semantics per type: key test on dicts,
substring test on strings, membership test on lists, `TypeError` (modelled
as `.error`) otherwise; `.ok none` means no match, so the sentinels stay. -/
def tryDataUrl (d : JVal) : Except Unit (Option (Str × Str)) :=
  match d with
  | .obj dfs =>
    match jLookup "url".toList dfs with
    | none => .ok none
    | some (.str url) => .ok (parseBlobUrl url)
    | some _ => .error ()
  | .str s => if containsStr "url".toList s then .error () else .ok none
  | .arr xs => if arrHasStr "url".toList xs then .error () else .ok none
  | .null => .error ()

/-- `'data' in event_data and 'url' in event_data['data']` on the first
element of an Event Grid list (lines 180-189). -/
def tryEventUrl (e : JVal) : Except Unit (Option (Str × Str)) :=
  match e with
  | .obj fs =>
    match jLookup "data".toList fs with
    | none => .ok none
    | some d => tryDataUrl d
  | .str s => if containsStr "data".toList s then .error () else .ok none
  | .arr xs => if arrHasStr "data".toList xs then .error () else .ok none
  | .null => .error ()

/-- The blob-information extraction of `_process_single_message`
(servicebus_processor.py lines 157-200): `blob_name` and `container_name`
start as the truthy sentinel string `"unknown"` and are only replaced when
one of the three recognized shapes matches; `.error` models an exception
raised during extraction (caught by the generic handler). -/
def extractBlobInfo (j : JVal) : Except Unit (JVal × JVal) :=
  let unknown : JVal := .str "unknown".toList
  match j with
  | .arr (e :: _) =>
    match tryEventUrl e with
    | .error _ => .error ()
    | .ok none => .ok (unknown, unknown)
    | .ok (some (blob, container)) => .ok (.str blob, .str container)
  | .arr [] => .ok (unknown, unknown)
  | .obj fs =>
    if ((jLookup "blob_name".toList fs).isSome && (jLookup "container_name".toList fs).isSome)
    then
      .ok ((jLookup "blob_name".toList fs).getD .null,
           (jLookup "container_name".toList fs).getD .null)
    else
      match jLookup "data".toList fs with
      | none => .ok (unknown, unknown)
      | some d =>
        match tryDataUrl d with
        | .error _ => .error ()
        | .ok none => .ok (unknown, unknown)
        | .ok (some (blob, container)) => .ok (.str blob, .str container)
  | .str s =>
    if containsStr "blob_name".toList s && containsStr "container_name".toList s then .error ()
    else if containsStr "data".toList s then .error ()
    else .ok (unknown, unknown)
  | .null => .error ()

/-- Outcome of `DocumentProcessor.process_file` as observed by the message
handler: normal return, or one of the exception classes it distinguishes. -/
inductive ProcRes where
  | success
  | blobNotFound
  | procSkipped
  | tokenAcq
  | generic
deriving DecidableEq

/-- Message acknowledgment. -/
inductive Ack where
  | completed
  | abandoned
deriving DecidableEq

/-- Observable behaviour of `_process_single_message` on one message:
the acknowledgment sent, the boolean returned, whether
`process_file` was invoked and with which arguments. -/
structure HandlerRes where
  ack : Ack
  retOk : Bool
  invoked : Bool
  invokedWith : Option (JVal × JVal)

/-- `ServiceBusProcessor._process_single_message` (servicebus_processor.py
lines 147-247).  `body = none` models a body `json.loads` rejects; `proc`
is the orchestrator's behaviour on the extracted blob/container pair. -/
def process_single_message (proc : JVal → JVal → ProcRes) (body : Option JVal) :
    HandlerRes :=
  match body with
  | none => ⟨.completed, true, false, none⟩
  | some j =>
    match extractBlobInfo j with
    | .error _ => ⟨.abandoned, false, false, none⟩
    | .ok (b, c) =>
      if pyFalsy b || pyFalsy c then ⟨.completed, true, false, none⟩
      else
        match proc b c with
        | .success => ⟨.completed, true, true, some (b, c)⟩
        | .blobNotFound => ⟨.completed, true, true, some (b, c)⟩
        | .procSkipped => ⟨.completed, true, true, some (b, c)⟩
        | .tokenAcq => ⟨.abandoned, false, true, some (b, c)⟩
        | .generic => ⟨.abandoned, false, true, some (b, c)⟩

/-! ### Instrumented chunker

`chunkTextAnnot` recomputes `chunk_text` while tagging each emitted chunk
with whether it was seeded from a nonempty overlap window taken from the
previously flushed chunk (the `elif` branch of chunking.py lines 103-111).
The tag is pure instrumentation: projecting it away recovers `chunk_text`
(proved below). -/

/-- State of the annotated sentence loop: chunks tagged with the
overlap-seeding flag, the running chunk, its tracked token count, and
whether the running chunk was seeded from a nonempty overlap window. -/
structure CTAState where
  chunks : List (Str × Bool)
  cur : Str
  curT : Nat
  curFlag : Bool

/-- Annotated flush. -/
def cta_flush (st : CTAState) : List (Str × Bool) :=
  if trim st.cur ≠ [] then st.chunks ++ [(trim st.cur, st.curFlag)] else st.chunks

/-- Annotated version of `ct_step`. -/
def cta_step (tk : Tokenizer) (ratio max_tokens overlap_tokens : Nat)
    (st : CTAState) (s : Str) : CTAState :=
  let sT := count_tokens tk ratio s
  if sT > max_tokens then
    let base := cta_flush st
    let scs := split_long_sentence tk ratio s max_tokens
    let cur2 := scs.getLast?.getD []
    ⟨base ++ scs.dropLast.map (fun c => (c, false)), cur2, count_tokens tk ratio cur2, false⟩
  else if st.curT + sT > max_tokens then
    let base := cta_flush st
    let ovt := get_overlap_text tk ratio st.cur overlap_tokens
    let cur2 := ovt ++ ' ' :: s
    ⟨base, cur2, count_tokens tk ratio cur2, !ovt.isEmpty⟩
  else
    ⟨st.chunks, if st.cur ≠ [] then st.cur ++ ' ' :: s else s, st.curT + sT, st.curFlag⟩

/-- Annotated version of `chunk_text`. -/
def chunkTextAnnot (tk : Tokenizer) (ratio : Nat) (text : Str)
    (max_tokens overlap_tokens : Nat) : List (Str × Bool) :=
  if trim text = [] then []
  else if count_tokens tk ratio text ≤ max_tokens then [(text, false)]
  else
    cta_flush ((split_into_sentences text).foldl
      (cta_step tk ratio max_tokens overlap_tokens) ⟨[], [], 0, false⟩)

/-- The overlap relation between consecutive chunks: some nonempty
single-space join of a suffix of `c`'s word list is a literal prefix of
`d`. -/
def ovRel (c d : Str) : Prop :=
  ∃ k, k < (words c).length ∧ joinWords ((words c).drop k) ≠ [] ∧
    joinWords ((words c).drop k) <+: d

/-- Adjacency relation for annotated chunk lists: a chunk tagged as
overlap-seeded receives its seed from the immediately preceding chunk. -/
def Rov (p q : Str × Bool) : Prop := q.2 = true → ovRel p.1 q.1

/-- Tokenizer whose `encode` always raises: exercises the
character-estimation fallback of `count_tokens`. -/
def failTok : Tokenizer where
  encode _ := none
  decode _ := none

/-- Tokenizer counting every text at exactly 3000 tokens: instantiates the
3-pages-of-3000-tokens scenario. -/
def pageTok : Tokenizer where
  encode _ := some (List.replicate 3000 [])
  decode _ := some []

/-- Concrete embedding environment in which only the chunk `"b"` fails:
dimension 3, generous ceiling, client present. -/
def cexEmbEnv : EmbEnv where
  tk := wordTok
  ratio := 4
  embMaxTokens := 100
  dim := 3
  clientPresent := true
  create s := if s = "b".toList then none else some [1]

/-- Concrete indexing environment over `cexEmbEnv` whose upload always
succeeds. -/
def cexIdxEnv : IdxEnv where
  E := cexEmbEnv
  searchPresent := true
  upload _ := some true

/-! ## Theorems -/

theorem trim_nil : trim [] = [] := rfl

theorem trim_ne_nil_of_ne {s : Str} (h : trim s ≠ []) : s ≠ [] := by
  intro hs; exact h (hs ▸ trim_nil)

/-- Claim C9: `count_tokens` is total (it is a Lean function), and when the
underlying tokenizer raises it returns `len(text) // ratio`, the
floor-division character estimate. -/
theorem C9_count_tokens_fallback (tk : Tokenizer) (ratio : Nat) (text : Str)
    (h : tk.encode text = none) :
    count_tokens tk ratio text = text.length / ratio := by
  simp [count_tokens, h]

theorem C9_count_tokens_fallback_witness :
    failTok.encode "abcde".toList = none ∧
    count_tokens failTok 4 "abcde".toList = 1 :=
  ⟨rfl, by rw [C9_count_tokens_fallback failTok 4 "abcde".toList rfl]; decide⟩

/-- Claim C4 (code bug evaluation): the body `{"foo": "bar"}` parses as
JSON but lacks the blob/container fields; because `blob_name` and
`container_name` are initialized to the truthy sentinel `"unknown"`, the
missing-fields guard does not fire: the orchestrator IS invoked with
`("unknown", "unknown")` and, when it fails with a generic error, the
message is abandoned — the claim says such messages are always
completed. -/
theorem C4_missing_fields_abandoned :
    process_single_message (fun _ _ => ProcRes.generic)
      (some (JVal.obj [("foo".toList, JVal.str "bar".toList)])) =
    ⟨Ack.abandoned, false, true,
      some (JVal.str "unknown".toList, JVal.str "unknown".toList)⟩ := by
  rfl

/-- Claim C7 (counterexample): the whitespace-only text `" "` has token
count `0 ≤ maxTokens` yet `chunk_text` returns `[]`, not `[" "]`, because
the emptiness guard tests `text.strip()`. -/
theorem C7_cex_whitespace :
    count_tokens wordTok 4 " ".toList = 0 ∧
    chunk_text wordTok 4 " ".toList 10 0 = [] ∧
    ([] : List Str) ≠ [" ".toList] := by
  refine ⟨rfl, rfl, ?_⟩
  simp

/-- Claim C7 (amended): for text whose `strip()` is nonempty and whose
token count is within the budget, `chunk_text` returns exactly `[text]`
unmodified; and the empty-input laws `chunk_text("") = []`,
`chunk_pages([]) = []` hold. -/
theorem C7_short_text_law (tk : Tokenizer) (ratio : Nat) (text : Str)
    (max_tokens overlap_tokens : Nat) :
    (trim text ≠ [] → count_tokens tk ratio text ≤ max_tokens →
      chunk_text tk ratio text max_tokens overlap_tokens = [text]) ∧
    chunk_text tk ratio [] max_tokens overlap_tokens = [] ∧
    chunk_pages tk ratio [] max_tokens overlap_tokens = [] := by
  refine ⟨fun ht hc => ?_, by simp [chunk_text, trim_nil], by simp [chunk_pages]⟩
  simp [chunk_text, ht, hc]

theorem C7_short_text_law_witness :
    trim "hello world".toList ≠ [] ∧
    count_tokens wordTok 4 "hello world".toList ≤ 10 ∧
    chunk_text wordTok 4 "hello world".toList 10 2 = ["hello world".toList] := by
  refine ⟨by decide, by decide, ?_⟩
  exact (C7_short_text_law wordTok 4 "hello world".toList 10 2).1 (by decide) (by decide)

/-- Claim C1 (counterexample): with the word tokenizer, `maxTokens = 2 > 0`
and `overlapTokens = 2 ≥ 0`, `chunk_text` emits the chunk
`"ccc ddd eee"` (seeded from an overlap window), whose token count `3`
exceeds `maxTokens = 2` and whose length `11` also exceeds
`maxTokens * EMBEDDING_FALLBACK_TOKEN_RATIO = 8`, so it is covered by
neither the token bound nor the character-split exemption. -/
theorem C1_cex_overlap_overflow :
    chunk_text wordTok 4 "aaa bbb ccc. ddd eee.".toList 2 2 =
      ["aaa bbb".toList, "ccc".toList, "ccc ddd eee".toList] ∧
    count_tokens wordTok 4 "ccc ddd eee".toList = 3 ∧
    ¬ (3 : Nat) ≤ 2 ∧
    "ccc ddd eee".toList.length = 11 ∧
    ¬ (11 : Nat) ≤ 2 * 4 := by
  refine ⟨by decide, by decide, by decide, by decide, by decide⟩

/-- Claim C6 (counterexample): on `"a b  c. d e f."` (double space inside
the first sentence) with the word tokenizer, `maxTokens = 3`,
`overlapTokens = 2`, the two produced chunks are `"a b  c"` and
`"b c d e f"`: the overlap window is re-joined with single spaces, so NO
nonempty suffix of chunk 0 is a prefix of chunk 1. -/
theorem C6_cex_respaced_overlap :
    chunk_text wordTok 4 "a b  c. d e f.".toList 3 2 =
      ["a b  c".toList, "b c d e f".toList] ∧
    ((List.range "a b  c".toList.length).all
      (fun k => !(List.isPrefixOf ("a b  c".toList.drop k) "b c d e f".toList))) = true := by
  refine ⟨by decide, by decide⟩

/-- Claim C2 (counterexample): three chunks `a`, `b`, `c` where the
embedding call fails only for `b` (environment `cexIdxEnv`): the batch
passed to `upload_documents` contains all THREE documents — the failed
chunk is included with the zero vector, not dropped — and the attempt
succeeds. -/
theorem C2_cex_zero_vector_not_dropped :
    index_document_chunks cexIdxEnv "doc".toList
        ["a".toList, "b".toList, "c".toList] =
      Except.ok [⟨"doc_chunk_0".toList, "a".toList, [1]⟩,
                 ⟨"doc_chunk_1".toList, "b".toList, [0, 0, 0]⟩,
                 ⟨"doc_chunk_2".toList, "c".toList, [1]⟩] ∧
    ¬ ([⟨"doc_chunk_0".toList, "a".toList, [1]⟩,
        ⟨"doc_chunk_1".toList, "b".toList, [0, 0, 0]⟩,
        ⟨"doc_chunk_2".toList, "c".toList, [1]⟩] : List IndexDoc).length = 2 := by
  constructor
  · rfl
  · simp

/-! ### Retry wrapper invariants -/

/-- Run invariant of the retry loop, for any starting attempt counter
`a ≤ maxR`: at most `maxR - a` further non-rate-limited calls are made; a
success leaves the counter strictly below `maxR` with one fixed-delay
sleep per consumed non-rate-limited failure; a re-raise leaves the counter
exactly at `maxR` having slept `maxR - 1 - a` fixed delays. -/
theorem retryRun_inv {α ε : Type} (maxR : Nat) (outs : List (Att α ε)) :
    ∀ a, a ≤ maxR →
      (retryRun maxR a outs).nonRLCalls + a ≤ maxR ∧
      (∀ v, (retryRun maxR a outs).out = ROut.ok v →
        a ≤ (retryRun maxR a outs).attempts ∧
        (retryRun maxR a outs).attempts < maxR ∧
        (retryRun maxR a outs).delaySleeps + a = (retryRun maxR a outs).attempts) ∧
      (∀ e, (retryRun maxR a outs).out = ROut.raised e →
        (retryRun maxR a outs).attempts = maxR ∧
        (retryRun maxR a outs).delaySleeps + 1 + a = maxR) := by
  induction outs with
  | nil =>
    intro a ha
    by_cases h : a < maxR <;> simp [retryRun, h, ha]
  | cons o rest ih =>
    intro a ha
    by_cases h : a < maxR
    · cases o with
      | ok v => simp [retryRun, h]; omega
      | err rl e =>
        cases rl with
        | true =>
          have := ih a ha
          simpa [retryRun, h] using this
        | false =>
          by_cases h2 : a + 1 < maxR
          · have := ih (a + 1) (Nat.le_of_lt h2)
            simp only [retryRun, if_pos h, if_pos h2]
            refine ⟨by omega, fun v hv => ?_, fun e2 he2 => ?_⟩
            · obtain ⟨x1, x2, x3⟩ := this.2.1 v hv
              omega
            · obtain ⟨x1, x2⟩ := this.2.2 e2 he2
              omega
          · simp only [retryRun, if_pos h, if_neg h2]
            simp; omega
    · simp [retryRun, h]; omega

/-- Claim C5: behaviour of the `retry_logic` wrapper (identical for the
sync and async shapes).  (a) a rate-limited failure causes one rate-limit
sleep and a retry with the attempt counter unchanged; (b) at most
`max_retries` non-rate-limited calls are ever made; (c) on success the
counter stayed below `max_retries` and each consumed non-rate-limited
failure was followed by exactly one fixed-delay sleep; (d) on exhaustion
exactly `max_retries` attempts were counted with `max_retries - 1` delay
sleeps in between; (e) the `max_retries`-th non-rate-limited failure
re-raises that very error. -/
theorem C5_retry_logic {α ε : Type} (maxR : Nat) (hm : 0 < maxR)
    (e : ε) (outs : List (Att α ε)) :
    (∀ a, a < maxR →
      retryRun maxR a (Att.err true e :: outs) =
        ⟨(retryRun maxR a outs).out, (retryRun maxR a outs).attempts,
         (retryRun maxR a outs).nonRLCalls, (retryRun maxR a outs).rlSleeps + 1,
         (retryRun maxR a outs).delaySleeps⟩) ∧
    (retryRun maxR 0 outs).nonRLCalls ≤ maxR ∧
    (∀ v, (retryRun maxR 0 outs).out = ROut.ok v →
      (retryRun maxR 0 outs).attempts < maxR ∧
      (retryRun maxR 0 outs).delaySleeps = (retryRun maxR 0 outs).attempts) ∧
    (∀ e2, (retryRun maxR 0 outs).out = ROut.raised e2 →
      (retryRun maxR 0 outs).attempts = maxR ∧
      (retryRun maxR 0 outs).delaySleeps + 1 = maxR) ∧
    (∀ a (rest : List (Att α ε)), a + 1 = maxR →
      retryRun maxR a (Att.err false e :: rest) = ⟨ROut.raised e, maxR, 1, 0, 0⟩) := by
  have base := retryRun_inv maxR outs 0 (Nat.zero_le _)
  refine ⟨fun a ha => ?_, by omega, fun v hv => ?_, fun e2 he2 => ?_, fun a rest ha => ?_⟩
  · simp [retryRun, ha]
  · obtain ⟨x1, x2, x3⟩ := base.2.1 v hv
    omega
  · obtain ⟨x1, x2⟩ := base.2.2 e2 he2
    omega
  · have hlt : a < maxR := by omega
    have hnlt : ¬ a + 1 < maxR := by omega
    simp [retryRun, hlt, hnlt, ha]

theorem C5_retry_logic_witness :
    0 < 3 ∧ (retryRun 3 0 [Att.err false (), Att.ok (5 : Nat)]).nonRLCalls ≤ 3 :=
  ⟨by decide, (C5_retry_logic 3 (by decide) () [Att.err false (), Att.ok (5 : Nat)]).2.1⟩

/-! ### Embedding and indexing -/

/-- Claim C10: `generate_embeddings` is total and never propagates a
failure: whenever the body of its `try` block fails at any step (missing
client, tokenizer raise during truncation, or the embedding call itself),
it returns the zero vector; on success it returns the embedding; hence the
`retry_logic` decorator wrapping it sees a single successful call — the
attempt counter stays `0` and no rate-limit or fixed-delay sleep ever
happens for embedding errors. -/
theorem C10_generate_embeddings_total (E : EmbEnv) (text : Str) (maxR : Nat)
    (hm : 0 < maxR) :
    (embedAttempt E text = none →
      generate_embeddings E text = List.replicate E.dim 0) ∧
    (∀ v, embedAttempt E text = some v → generate_embeddings E text = v) ∧
    retryRun maxR 0 [Att.ok (ε := Unit) (generate_embeddings E text)] =
      ⟨ROut.ok (generate_embeddings E text), 0, 1, 0, 0⟩ := by
  refine ⟨fun h => ?_, fun v h => ?_, ?_⟩
  · simp [generate_embeddings, h]
  · simp [generate_embeddings, h]
  · simp [retryRun, hm]

theorem C10_generate_embeddings_total_witness :
    0 < 3 ∧
    embedAttempt cexEmbEnv "b".toList = none ∧
    generate_embeddings cexEmbEnv "b".toList = List.replicate 3 0 :=
  ⟨by decide, rfl,
    (C10_generate_embeddings_total cexEmbEnv "b".toList 3 (by decide)).1 rfl⟩

/-- Fold identity: accumulating only `.ok` gather entries appends one
document per pair. -/
theorem build_fold_ok (base : Str) (E : EmbEnv) :
    ∀ (ps : List (Nat × Str)) (acc : List IndexDoc),
      (ps.map (fun p => (Except.ok (p.1, p.2, generate_embeddings E p.2) :
          Except Unit (Nat × Str × List ℚ)))).foldl
        (fun acc r =>
          match r with
          | .error _ => acc
          | .ok (i, c, emb) => acc ++ [⟨chunkDocId base i, c, emb⟩]) acc =
      acc ++ ps.map (fun p => ⟨chunkDocId base p.1, p.2, generate_embeddings E p.2⟩) := by
  intro ps
  induction ps with
  | nil => simp
  | cons p ps ih => intro acc; simp [ih]

/-- The batch built by `index_document_chunks` is one document per chunk,
in input order. -/
theorem build_index_batch_eq (E : EmbEnv) (base : Str) (chunks : List Str) :
    build_index_batch E base chunks =
      chunks.enum.map
        (fun p => ⟨chunkDocId base p.1, p.2, generate_embeddings E p.2⟩) := by
  simpa [build_index_batch, gatherResults] using
    build_fold_ok base E chunks.enum []

/-- Claim C3: when the embedding attempt for chunk `i` fails (so the retry
budget inside the decorator was exhausted or the call raised), the vector
substituted for that chunk is the zero vector of exactly the configured
dimension, and the index document built from that chunk is still part of
the batch handed to `upload_documents` — the batch keeps one document per
chunk. -/
theorem C3_zero_vector_dimension (E : EmbEnv) (base : Str) (chunks : List Str)
    (i : Nat) (hi : i < chunks.length)
    (hf : embedAttempt E chunks[i] = none) :
    (build_index_batch E base chunks).length = chunks.length ∧
    ∃ hj : i < (build_index_batch E base chunks).length,
      (build_index_batch E base chunks).get ⟨i, hj⟩ =
        ⟨chunkDocId base i, chunks[i], List.replicate E.dim 0⟩ ∧
      (List.replicate E.dim (0 : ℚ)).length = E.dim ∧
      ∀ x ∈ List.replicate E.dim (0 : ℚ), x = 0 := by
  have hlen : (build_index_batch E base chunks).length = chunks.length := by
    rw [build_index_batch_eq]; simp
  refine ⟨hlen, by omega, ?_, by simp, by simp⟩
  have hj : i < (build_index_batch E base chunks).length := by omega
  show (build_index_batch E base chunks)[i] = _
  rw [List.getElem_of_eq (build_index_batch_eq E base chunks) hj,
    List.getElem_map, List.getElem_enum]
  simp [generate_embeddings, hf]

theorem C3_zero_vector_dimension_witness :
    (1 : Nat) < 3 ∧
    embedAttempt cexEmbEnv "b".toList = none ∧
    (build_index_batch cexEmbEnv "doc".toList
      ["a".toList, "b".toList, "c".toList]).length = 3 :=
  ⟨by decide, rfl,
    (C3_zero_vector_dimension cexEmbEnv "doc".toList
      ["a".toList, "b".toList, "c".toList] 1 (by decide) rfl).1⟩

/-- Claim C2 (amended): with three chunks where the embedding attempt
fails for the middle one and succeeds for the others, the batch passed to
`upload_documents` contains all THREE documents with id suffixes
`_chunk_0`, `_chunk_1`, `_chunk_2` — the failed chunk is included with the
zero vector rather than dropped — and the attempt completes successfully
when the upload succeeds. -/
theorem C2_partial_failure_batch (V : IdxEnv) (base c0 c1 c2 : Str)
    (v0 v2 : List ℚ)
    (hs : V.searchPresent = true)
    (h0 : embedAttempt V.E c0 = some v0)
    (h1 : embedAttempt V.E c1 = none)
    (h2 : embedAttempt V.E c2 = some v2)
    (hu : V.upload [⟨chunkDocId base 0, c0, v0⟩,
                    ⟨chunkDocId base 1, c1, List.replicate V.E.dim 0⟩,
                    ⟨chunkDocId base 2, c2, v2⟩] = some true) :
    index_document_chunks V base [c0, c1, c2] =
      Except.ok [⟨chunkDocId base 0, c0, v0⟩,
                 ⟨chunkDocId base 1, c1, List.replicate V.E.dim 0⟩,
                 ⟨chunkDocId base 2, c2, v2⟩] := by
  have hb : build_index_batch V.E base [c0, c1, c2] =
      [⟨chunkDocId base 0, c0, v0⟩,
       ⟨chunkDocId base 1, c1, List.replicate V.E.dim 0⟩,
       ⟨chunkDocId base 2, c2, v2⟩] := by
    rw [build_index_batch_eq]
    simp [List.enum, List.enumFrom, generate_embeddings, h0, h1, h2]
  simp [index_document_chunks, hs, hb, hu]

theorem C2_partial_failure_batch_witness :
    cexIdxEnv.searchPresent = true ∧
    embedAttempt cexEmbEnv "b".toList = none ∧
    index_document_chunks cexIdxEnv "doc".toList
        ["a".toList, "b".toList, "c".toList] =
      Except.ok [⟨chunkDocId "doc".toList 0, "a".toList, [1]⟩,
                 ⟨chunkDocId "doc".toList 1, "b".toList, List.replicate 3 0⟩,
                 ⟨chunkDocId "doc".toList 2, "c".toList, [1]⟩] :=
  ⟨rfl, rfl,
    C2_partial_failure_batch cexIdxEnv "doc".toList
      "a".toList "b".toList "c".toList [1] [1] rfl rfl rfl rfl rfl⟩

/-! ### Page-aware chunking -/

/-- Claim C8: three pages of 3000 tokens each under a 4000-token budget
are emitted as three chunks, one per page (modulo `strip()`): page 1
cannot merge with page 2 (3000 + 3000 > 4000), and so on. -/
theorem C8_three_pages (tk : Tokenizer) (ratio : Nat) (p1 p2 p3 : Str)
    (ovDefault : Nat)
    (h1 : count_tokens tk ratio p1 = 3000)
    (h2 : count_tokens tk ratio p2 = 3000)
    (h3 : count_tokens tk ratio p3 = 3000)
    (t1 : trim p1 ≠ []) (t2 : trim p2 ≠ []) (t3 : trim p3 ≠ []) :
    chunk_pages tk ratio [p1, p2, p3] 4000 ovDefault =
      [trim p1, trim p2, trim p3] := by
  have n1 : p1 ≠ [] := trim_ne_nil_of_ne t1
  have n2 : p2 ≠ [] := trim_ne_nil_of_ne t2
  rw [chunk_pages]
  rw [if_neg (by simp)]
  rw [List.foldl_cons, List.foldl_cons, List.foldl_cons, List.foldl_nil]
  rw [show cp_step tk ratio 4000 ovDefault ⟨[], [], 0⟩ p1 = ⟨[], p1, 3000⟩ by
    rw [cp_step]; simp [h1]]
  rw [show cp_step tk ratio 4000 ovDefault ⟨[], p1, 3000⟩ p2 = ⟨[trim p1], p2, 3000⟩ by
    rw [cp_step]; simp [h2, n1]]
  rw [show cp_step tk ratio 4000 ovDefault ⟨[trim p1], p2, 3000⟩ p3 =
      ⟨[trim p1, trim p2], p3, 3000⟩ by
    rw [cp_step]; simp [h3, n2]]
  simp [t3]

/-- Under `pageTok` every text counts exactly 3000 tokens. -/
theorem pageTok_count (t : Str) : count_tokens pageTok 4 t = 3000 := by
  show (List.replicate 3000 ([] : Str)).length = 3000
  exact List.length_replicate 3000 []

theorem C8_three_pages_witness :
    count_tokens pageTok 4 "p1".toList = 3000 ∧
    chunk_pages pageTok 4 ["p1".toList, "p2".toList, "p3".toList] 4000 200 =
      [trim "p1".toList, trim "p2".toList, trim "p3".toList] :=
  ⟨pageTok_count _,
    C8_three_pages pageTok 4 "p1".toList "p2".toList "p3".toList 200
      (pageTok_count _) (pageTok_count _) (pageTok_count _)
      (by decide) (by decide) (by decide)⟩

/-! ### Lemmas about `words`, `trim` and `joinWords` -/

theorem wordsAux_all_nonWS :
    ∀ (s acc : Str), (∀ c ∈ acc, isWS c = false) →
      ∀ w ∈ wordsAux s acc, w ≠ [] ∧ ∀ c ∈ w, isWS c = false := by
  intro s
  induction s with
  | nil =>
    intro acc hacc w hw
    by_cases h : acc = []
    · simp [wordsAux, h] at hw
    · simp [wordsAux, h] at hw
      subst hw
      refine ⟨by simpa using h, fun c hc => hacc c (by simpa using hc)⟩
  | cons c cs ih =>
    intro acc hacc w hw
    by_cases hws : isWS c
    · by_cases h : acc = []
      · simp [wordsAux, hws, h] at hw
        exact ih [] (by simp) w hw
      · simp [wordsAux, hws, h, List.mem_cons] at hw
        rcases hw with heq | hw
        · subst heq
          refine ⟨by simpa using h, fun d hd => hacc d (by simpa using hd)⟩
        · exact ih [] (by simp) w hw
    · simp only [wordsAux, hws, Bool.false_eq_true, if_false] at hw
      refine ih (c :: acc) ?_ w hw
      intro d hd
      rcases List.mem_cons.1 hd with rfl | hd
      · simpa using hws
      · exact hacc d hd

/-- Every word is nonempty and contains no whitespace. -/
theorem mem_words {s w : Str} (hw : w ∈ words s) :
    w ≠ [] ∧ ∀ c ∈ w, isWS c = false :=
  wordsAux_all_nonWS s [] (by simp) w hw

theorem wordsAux_append_space (b : Str) :
    ∀ (a acc : Str), wordsAux (a ++ ' ' :: b) acc =
      wordsAux a acc ++ wordsAux b [] := by
  intro a
  induction a with
  | nil =>
    intro acc
    by_cases h : acc = [] <;>
      simp [wordsAux, h, isWS, Char.isWhitespace]
  | cons c cs ih =>
    intro acc
    by_cases hws : isWS c
    · by_cases h : acc = [] <;> simp [wordsAux, hws, h, ih]
    · simp [wordsAux, hws, ih]

/-- Python `split()` distributes over a single-space join. -/
theorem words_append_space (a b : Str) :
    words (a ++ ' ' :: b) = words a ++ words b :=
  wordsAux_append_space b a []

theorem wordsAux_all_ws :
    ∀ (t acc : Str), (∀ c ∈ t, isWS c = true) →
      wordsAux t acc = if acc = [] then [] else [acc.reverse] := by
  intro t
  induction t with
  | nil => intro acc _; simp [wordsAux]
  | cons c cs ih =>
    intro acc ht
    have hc : isWS c = true := ht c (by simp)
    by_cases h : acc = []
    · simp only [wordsAux, hc, if_pos rfl, h, if_pos rfl]
      simpa using ih [] (fun d hd => ht d (by simp [hd]))
    · simp only [wordsAux, hc, if_pos rfl, if_neg h, if_neg h]
      have := ih [] (fun d hd => ht d (by simp [hd]))
      simp at this
      simp [this]

theorem wordsAux_append_ws (t : Str) (htws : ∀ c ∈ t, isWS c = true) :
    ∀ (s acc : Str), wordsAux (s ++ t) acc = wordsAux s acc := by
  intro s
  induction s with
  | nil =>
    intro acc
    simp only [List.nil_append]
    rw [wordsAux_all_ws t acc htws]
    rfl
  | cons c cs ih =>
    intro acc
    by_cases hws : isWS c
    · by_cases h : acc = [] <;> simp [wordsAux, hws, h, ih]
    · simp [wordsAux, hws, ih]

/-- Trailing whitespace does not change the word list. -/
theorem words_append_ws {s t : Str} (htws : ∀ c ∈ t, isWS c = true) :
    words (s ++ t) = words s :=
  wordsAux_append_ws t htws s []

theorem words_dropWhile_ws (s : Str) : words (s.dropWhile isWS) = words s := by
  induction s with
  | nil => rfl
  | cons c cs ih =>
    by_cases hws : isWS c
    · rw [List.dropWhile_cons, if_pos hws]
      rw [ih]
      show words cs = wordsAux (c :: cs) []
      simp [wordsAux, hws]
      rfl
    · rw [List.dropWhile_cons, if_neg (by simp [hws])]

theorem words_trimRight (t : Str) :
    words (t.reverse.dropWhile isWS).reverse = words t := by
  have h0 : t.reverse = t.reverse.takeWhile isWS ++ t.reverse.dropWhile isWS :=
    (List.takeWhile_append_dropWhile (p := isWS) (l := t.reverse)).symm
  have h1 : t = (t.reverse.dropWhile isWS).reverse ++ (t.reverse.takeWhile isWS).reverse := by
    calc t = t.reverse.reverse := (t.reverse_reverse).symm
      _ = (t.reverse.takeWhile isWS ++ t.reverse.dropWhile isWS).reverse := by rw [← h0]
      _ = (t.reverse.dropWhile isWS).reverse ++ (t.reverse.takeWhile isWS).reverse :=
        List.reverse_append _ _
  have hws : ∀ c ∈ (t.reverse.takeWhile isWS).reverse, isWS c = true := by
    intro c hc
    exact List.mem_takeWhile_imp (by simpa using hc)
  calc words (t.reverse.dropWhile isWS).reverse
      = words ((t.reverse.dropWhile isWS).reverse ++ (t.reverse.takeWhile isWS).reverse) :=
        (words_append_ws hws).symm
    _ = words t := by rw [← h1]

/-- `strip()` does not change the word list. -/
theorem words_trim (s : Str) : words (trim s) = words s := by
  unfold trim
  rw [words_trimRight (s.dropWhile isWS), words_dropWhile_ws]

/-- A string whose words are empty strips to the empty string is used in
contrapositive form: nonempty word list forces nonempty strip. -/
theorem trim_ne_nil_of_words_ne_nil {s : Str} (h : words s ≠ []) : trim s ≠ [] := by
  intro htrim
  apply h
  rw [← words_trim, htrim]
  rfl

/-- A list of non-whitespace characters strips to itself. -/
theorem trim_eq_self_of_nonWS {s : Str} (h : ∀ c ∈ s, isWS c = false) :
    trim s = s := by
  unfold trim
  have h1 : s.dropWhile isWS = s := by
    cases s with
    | nil => rfl
    | cons c cs => rw [List.dropWhile_cons, if_neg (by simp [h c (by simp)])]
  rw [h1]
  have h2 : s.reverse.dropWhile isWS = s.reverse := by
    cases hrev : s.reverse with
    | nil => rfl
    | cons c cs =>
      rw [List.dropWhile_cons, if_neg ?_, ← hrev]
      have : c ∈ s := by
        have : c ∈ s.reverse := by rw [hrev]; simp
        simpa using this
      simp [h c this]
  rw [h2, s.reverse_reverse]

theorem trim_length_le (s : Str) : (trim s).length ≤ s.length := by
  unfold trim
  have h1 := (List.dropWhile_sublist (l := s) isWS).length_le
  have h2 := (List.dropWhile_sublist (l := (s.dropWhile isWS).reverse) isWS).length_le
  simp only [List.length_reverse] at h2 ⊢
  omega

theorem joinWords_ne_nil :
    ∀ (L : List Str), L ≠ [] → (∀ w ∈ L, w ≠ []) → joinWords L ≠ [] := by
  intro L
  match L with
  | [] => intro h; exact absurd rfl h
  | [w] => intro _ hw; simpa [joinWords] using hw w (by simp)
  | w :: v :: rest => intro _ _; simp [joinWords]

theorem joinWords_head_nonWS :
    ∀ (L : List Str), L ≠ [] → (∀ w ∈ L, w ≠ [] ∧ ∀ c ∈ w, isWS c = false) →
      ∃ c, (joinWords L).head? = some c ∧ isWS c = false := by
  intro L
  match L with
  | [] => intro h; exact absurd rfl h
  | [w] =>
    intro _ hw
    obtain ⟨hne, hWS⟩ := hw w (by simp)
    cases w with
    | nil => exact absurd rfl hne
    | cons c cs => exact ⟨c, by simp [joinWords], hWS c (by simp)⟩
  | w :: v :: rest =>
    intro _ hw
    obtain ⟨hne, hWS⟩ := hw w (by simp)
    cases w with
    | nil => exact absurd rfl hne
    | cons c cs =>
      refine ⟨c, ?_, hWS c (by simp)⟩
      simp [joinWords]

theorem joinWords_getLast_nonWS :
    ∀ (L : List Str), L ≠ [] → (∀ w ∈ L, w ≠ [] ∧ ∀ c ∈ w, isWS c = false) →
      ∃ c, (joinWords L).getLast? = some c ∧ isWS c = false := by
  intro L
  match L with
  | [] => intro h; exact absurd rfl h
  | [w] =>
    intro _ hw
    obtain ⟨hne, hWS⟩ := hw w (by simp)
    refine ⟨w.getLast hne, by simp [joinWords, List.getLast?_eq_getLast w hne], ?_⟩
    exact hWS _ (List.getLast_mem hne)
  | w :: v :: rest =>
    intro _ hw
    obtain ⟨c, hc, hcws⟩ := joinWords_getLast_nonWS (v :: rest) (by simp)
      (fun x hx => hw x (by simp [hx]))
    refine ⟨c, ?_, hcws⟩
    have hne2 : joinWords (v :: rest) ≠ [] :=
      joinWords_ne_nil (v :: rest) (by simp) (fun x hx => (hw x (by simp [hx])).1)
    show (joinWords (w :: v :: rest)).getLast? = some c
    have hj : joinWords (w :: v :: rest) = w ++ ' ' :: joinWords (v :: rest) := by
      simp [joinWords]
    obtain ⟨x, xs, hx⟩ := List.exists_cons_of_ne_nil hne2
    rw [hj, List.getLast?_append, hx, List.getLast?_cons_cons, ← hx, hc]
    rfl

/-! ### Overlap window and long-sentence splitting -/

/-- The descending overlap loop returns either its seed or the join of
some word suffix within the overlap budget. -/
theorem overlapGo_spec (tk : Tokenizer) (ratio ot : Nat) (ws : List Str) :
    ∀ j ov, j ≤ ws.length →
      (ov = [] ∨ ∃ k, k < ws.length ∧ ov = joinWords (ws.drop k) ∧
        count_tokens tk ratio (joinWords (ws.drop k)) ≤ ot) →
      (overlapGo tk ratio ot ws j ov = [] ∨
        ∃ k, k < ws.length ∧ overlapGo tk ratio ot ws j ov = joinWords (ws.drop k) ∧
          count_tokens tk ratio (joinWords (ws.drop k)) ≤ ot) := by
  intro j
  induction j with
  | zero => intro ov _ hov; simpa [overlapGo] using hov
  | succ j ih =>
    intro ov hj hov
    rw [overlapGo]
    by_cases h : count_tokens tk ratio (joinWords (ws.drop j)) > ot
    · simpa [h] using hov
    · simp only [h, if_false]
      exact ih _ (by omega) (Or.inr ⟨j, by omega, rfl, by omega⟩)

/-- `_get_overlap_text` returns the empty string or the single-space join
of a suffix of the text's word list whose token count is within the
overlap budget. -/
theorem get_overlap_spec (tk : Tokenizer) (ratio : Nat) (text : Str) (ot : Nat) :
    get_overlap_text tk ratio text ot = [] ∨
    ∃ k, k < (words text).length ∧
      get_overlap_text tk ratio text ot = joinWords ((words text).drop k) ∧
      count_tokens tk ratio (joinWords ((words text).drop k)) ≤ ot := by
  unfold get_overlap_text
  by_cases h : ot = 0
  · simp [h]
  · simp only [h, if_false]
    exact overlapGo_spec tk ratio ot (words text) (words text).length []
      (Nat.le_refl _) (Or.inl rfl)

/-- Every character-level slice has at most `m` characters. -/
theorem chunksOfCharsGo_length (m : Nat) :
    ∀ (fuel : Nat) (t : Str), ∀ c ∈ chunksOfCharsGo m fuel t, c.length ≤ m := by
  intro fuel
  induction fuel with
  | zero =>
    intro t c hc
    cases t <;> simp [chunksOfCharsGo] at hc
  | succ fuel ih =>
    intro t c hc
    cases t with
    | nil => simp [chunksOfCharsGo] at hc
    | cons a as =>
      by_cases hm : m = 0
      · simp [chunksOfCharsGo, hm] at hc
      · simp only [chunksOfCharsGo, hm, if_false, List.mem_cons] at hc
        rcases hc with rfl | hc
        · simpa using List.length_take_le m (a :: as)
        · exact ih _ c hc

/-- Every chunk of `_split_by_characters` fits in
`max_tokens * ratio` characters. -/
theorem split_by_characters_length (ratio : Nat) (t : Str) (max_tokens : Nat) :
    ∀ c ∈ split_by_characters ratio t max_tokens, c.length ≤ max_tokens * ratio :=
  chunksOfCharsGo_length (max_tokens * ratio) t.length t

theorem sls_step_flush (tk : Tokenizer) (ratio max_tokens : Nat)
    (st : List Str × Str) (w : Str) (hcur : st.2 ≠ [])
    (h : count_tokens tk ratio (st.2 ++ ' ' :: w) > max_tokens) :
    sls_step tk ratio max_tokens st w = (st.1 ++ [st.2], w) := by
  simp [sls_step, hcur, h]

theorem sls_step_chars (tk : Tokenizer) (ratio max_tokens : Nat)
    (st : List Str × Str) (w : Str) (hcur : st.2 = [])
    (h : count_tokens tk ratio w > max_tokens) :
    sls_step tk ratio max_tokens st w =
      (st.1 ++ split_by_characters ratio w max_tokens, []) := by
  simp [sls_step, hcur, h]

theorem sls_step_add_ne (tk : Tokenizer) (ratio max_tokens : Nat)
    (st : List Str × Str) (w : Str) (hcur : st.2 ≠ [])
    (h : ¬ count_tokens tk ratio (st.2 ++ ' ' :: w) > max_tokens) :
    sls_step tk ratio max_tokens st w = (st.1, st.2 ++ ' ' :: w) := by
  simp [sls_step, hcur, h]

theorem sls_step_add_nil (tk : Tokenizer) (ratio max_tokens : Nat)
    (st : List Str × Str) (w : Str) (hcur : st.2 = [])
    (h : ¬ count_tokens tk ratio w > max_tokens) :
    sls_step tk ratio max_tokens st w = (st.1, w) := by
  simp [sls_step, hcur, h]

/-- Invariant of the word loop of `_split_long_sentence`: every emitted
chunk is within the token budget, or is a character-level slice, or is a
single word; the running chunk is empty, within budget, or a single
word. -/
theorem sls_fold_inv (tk : Tokenizer) (ratio max_tokens : Nat) (ws0 : List Str) :
    ∀ (l : List Str) (st : List Str × Str),
      (∀ w ∈ l, w ∈ ws0) →
      (∀ c ∈ st.1, count_tokens tk ratio c ≤ max_tokens ∨
        c.length ≤ max_tokens * ratio ∨ c ∈ ws0) →
      (st.2 = [] ∨ count_tokens tk ratio st.2 ≤ max_tokens ∨ st.2 ∈ ws0) →
      (∀ c ∈ (l.foldl (sls_step tk ratio max_tokens) st).1,
        count_tokens tk ratio c ≤ max_tokens ∨
        c.length ≤ max_tokens * ratio ∨ c ∈ ws0) ∧
      ((l.foldl (sls_step tk ratio max_tokens) st).2 = [] ∨
        count_tokens tk ratio (l.foldl (sls_step tk ratio max_tokens) st).2 ≤ max_tokens ∨
        (l.foldl (sls_step tk ratio max_tokens) st).2 ∈ ws0) := by
  intro l
  induction l with
  | nil => intro st _ h1 h2; exact ⟨h1, h2⟩
  | cons w l ih =>
    intro st hl h1 h2
    rw [List.foldl_cons]
    have hw0 : w ∈ ws0 := hl w (by simp)
    have hl' : ∀ x ∈ l, x ∈ ws0 := fun x hx => hl x (by simp [hx])
    by_cases hcur : st.2 = []
    · by_cases h : count_tokens tk ratio w > max_tokens
      · rw [sls_step_chars tk ratio max_tokens st w hcur h]
        refine ih _ hl' ?_ (Or.inl rfl)
        intro c hc
        rcases List.mem_append.1 hc with hc | hc
        · exact h1 c hc
        · exact Or.inr (Or.inl (split_by_characters_length ratio w max_tokens c hc))
      · rw [sls_step_add_nil tk ratio max_tokens st w hcur h]
        exact ih _ hl' h1 (Or.inr (Or.inr hw0))
    · by_cases h : count_tokens tk ratio (st.2 ++ ' ' :: w) > max_tokens
      · rw [sls_step_flush tk ratio max_tokens st w hcur h]
        refine ih _ hl' ?_ (Or.inr (Or.inr hw0))
        intro c hc
        rcases List.mem_append.1 hc with hc | hc
        · exact h1 c hc
        · rcases h2 with h2 | h2 | h2
          · exact absurd h2 hcur
          · exact Or.inl (by simpa [List.mem_singleton.1 hc] using h2)
          · exact Or.inr (Or.inr (by simpa [List.mem_singleton.1 hc] using h2))
      · rw [sls_step_add_ne tk ratio max_tokens st w hcur h]
        exact ih _ hl' h1 (Or.inr (Or.inl (by simpa using Nat.not_lt.1 h)))

/-- Every chunk of `_split_long_sentence` is within the token budget, or
is a character-level slice of at most `max_tokens * ratio` characters, or
is a single word of the sentence. -/
theorem split_long_sentence_elems (tk : Tokenizer) (ratio : Nat) (s : Str)
    (max_tokens : Nat) :
    ∀ c ∈ split_long_sentence tk ratio s max_tokens,
      count_tokens tk ratio c ≤ max_tokens ∨
      c.length ≤ max_tokens * ratio ∨ c ∈ words s := by
  intro c hc
  unfold split_long_sentence at hc
  have := sls_fold_inv tk ratio max_tokens (words s) (words s) ([], [])
    (fun w hw => hw) (by simp) (Or.inl rfl)
  set st := (words s).foldl (sls_step tk ratio max_tokens) ([], []) with hst
  by_cases hcur : st.2 ≠ []
  · rw [if_pos hcur] at hc
    rcases List.mem_append.1 hc with hc | hc
    · exact this.1 c hc
    · rcases this.2 with h2 | h2 | h2
      · exact absurd h2 hcur
      · exact Or.inl (by simpa [List.mem_singleton.1 hc] using h2)
      · exact Or.inr (Or.inr (by simpa [List.mem_singleton.1 hc] using h2))
  · rw [if_neg hcur] at hc
    exact this.1 c hc

/-! ### Token bound for `chunk_text` (claim C1) -/

theorem ct_step_long (tk : Tokenizer) (ratio max_tokens overlap_tokens : Nat)
    (st : CTState) (s : Str)
    (h : count_tokens tk ratio s > max_tokens) :
    ct_step tk ratio max_tokens overlap_tokens st s =
      ⟨ct_flush st ++ (split_long_sentence tk ratio s max_tokens).dropLast,
       ((split_long_sentence tk ratio s max_tokens).getLast?).getD [],
       count_tokens tk ratio
         (((split_long_sentence tk ratio s max_tokens).getLast?).getD [])⟩ := by
  simp [ct_step, h]

theorem ct_step_flush (tk : Tokenizer) (ratio max_tokens overlap_tokens : Nat)
    (st : CTState) (s : Str)
    (h : ¬ count_tokens tk ratio s > max_tokens)
    (h2 : st.curT + count_tokens tk ratio s > max_tokens) :
    ct_step tk ratio max_tokens overlap_tokens st s =
      ⟨ct_flush st,
       get_overlap_text tk ratio st.cur overlap_tokens ++ ' ' :: s,
       count_tokens tk ratio
         (get_overlap_text tk ratio st.cur overlap_tokens ++ ' ' :: s)⟩ := by
  simp [ct_step, h, h2]

theorem ct_step_add (tk : Tokenizer) (ratio max_tokens overlap_tokens : Nat)
    (st : CTState) (s : Str)
    (h : ¬ count_tokens tk ratio s > max_tokens)
    (h2 : ¬ st.curT + count_tokens tk ratio s > max_tokens) :
    ct_step tk ratio max_tokens overlap_tokens st s =
      ⟨st.chunks, if st.cur ≠ [] then st.cur ++ ' ' :: s else s,
       st.curT + count_tokens tk ratio s⟩ := by
  simp [ct_step, h, h2]

/-- Flushing preserves the chunk property: the stripped running chunk is
within the extended budget, or a character-level slice, or a single
word. -/
theorem ct_flush_prop (tk : Tokenizer) (ratio max_tokens overlap_tokens : Nat)
    (sents0 : List Str) (st : CTState)
    (H3 : ∀ s, count_tokens tk ratio (trim s) ≤ count_tokens tk ratio s)
    (h1 : ∀ c ∈ st.chunks,
      count_tokens tk ratio c ≤ max_tokens + overlap_tokens ∨
      c.length ≤ max_tokens * ratio ∨ ∃ s ∈ sents0, c ∈ words s)
    (hc1 : count_tokens tk ratio st.cur ≤ st.curT)
    (hc2 : st.curT ≤ max_tokens + overlap_tokens ∨
      st.cur.length ≤ max_tokens * ratio ∨ ∃ s ∈ sents0, st.cur ∈ words s) :
    ∀ c ∈ ct_flush st,
      count_tokens tk ratio c ≤ max_tokens + overlap_tokens ∨
      c.length ≤ max_tokens * ratio ∨ ∃ s ∈ sents0, c ∈ words s := by
  intro c hc
  unfold ct_flush at hc
  by_cases ht : trim st.cur ≠ []
  · rw [if_pos ht] at hc
    rcases List.mem_append.1 hc with hc | hc
    · exact h1 c hc
    · have hceq : c = trim st.cur := List.mem_singleton.1 hc
      subst hceq
      rcases hc2 with h | h | ⟨s, hs, hw⟩
      · exact Or.inl (le_trans (le_trans (H3 st.cur) hc1) h)
      · exact Or.inr (Or.inl (le_trans (trim_length_le st.cur) h))
      · refine Or.inr (Or.inr ⟨s, hs, ?_⟩)
        rwa [trim_eq_self_of_nonWS (mem_words hw).2]
  · rw [if_neg ht] at hc
    exact h1 c hc

/-- Main loop invariant of `chunk_text`: assuming the token counter is
zero on the empty string, subadditive across single-space joins, and
non-increasing under `strip()`, every emitted chunk is within
`max_tokens + overlap_tokens`, or is a character-level slice, or is a
single word of some sentence; the running chunk's counter dominates its
count and satisfies the same trichotomy. -/
theorem ct_fold_inv (tk : Tokenizer) (ratio max_tokens overlap_tokens : Nat)
    (sents0 : List Str)
    (H0 : count_tokens tk ratio [] = 0)
    (H2 : ∀ a b, count_tokens tk ratio (a ++ ' ' :: b) ≤
      count_tokens tk ratio a + count_tokens tk ratio b)
    (H3 : ∀ s, count_tokens tk ratio (trim s) ≤ count_tokens tk ratio s) :
    ∀ (l : List Str) (st : CTState),
      (∀ s ∈ l, s ∈ sents0) →
      (∀ c ∈ st.chunks,
        count_tokens tk ratio c ≤ max_tokens + overlap_tokens ∨
        c.length ≤ max_tokens * ratio ∨ ∃ s ∈ sents0, c ∈ words s) →
      count_tokens tk ratio st.cur ≤ st.curT →
      (st.curT ≤ max_tokens + overlap_tokens ∨
        st.cur.length ≤ max_tokens * ratio ∨ ∃ s ∈ sents0, st.cur ∈ words s) →
      (∀ c ∈ (l.foldl (ct_step tk ratio max_tokens overlap_tokens) st).chunks,
        count_tokens tk ratio c ≤ max_tokens + overlap_tokens ∨
        c.length ≤ max_tokens * ratio ∨ ∃ s ∈ sents0, c ∈ words s) ∧
      count_tokens tk ratio (l.foldl (ct_step tk ratio max_tokens overlap_tokens) st).cur ≤
        (l.foldl (ct_step tk ratio max_tokens overlap_tokens) st).curT ∧
      ((l.foldl (ct_step tk ratio max_tokens overlap_tokens) st).curT ≤
          max_tokens + overlap_tokens ∨
        (l.foldl (ct_step tk ratio max_tokens overlap_tokens) st).cur.length ≤
          max_tokens * ratio ∨
        ∃ s ∈ sents0,
          (l.foldl (ct_step tk ratio max_tokens overlap_tokens) st).cur ∈ words s) := by
  intro l
  induction l with
  | nil => intro st _ h1 hc1 hc2; exact ⟨h1, hc1, hc2⟩
  | cons s l ih =>
    intro st hl h1 hc1 hc2
    rw [List.foldl_cons]
    have hs0 : s ∈ sents0 := hl s (by simp)
    have hl' : ∀ x ∈ l, x ∈ sents0 := fun x hx => hl x (by simp [hx])
    have hflush := ct_flush_prop tk ratio max_tokens overlap_tokens sents0 st H3 h1 hc1 hc2
    by_cases hlong : count_tokens tk ratio s > max_tokens
    · rw [ct_step_long tk ratio max_tokens overlap_tokens st s hlong]
      set scs := split_long_sentence tk ratio s max_tokens with hscs
      have hscsEl := split_long_sentence_elems tk ratio s max_tokens
      refine ih _ hl' ?_ (le_refl _) ?_
      · intro c hc
        rcases List.mem_append.1 hc with hc | hc
        · exact hflush c hc
        · rcases hscsEl c (List.dropLast_subset _ hc) with h | h | h
          · exact Or.inl (le_trans h (Nat.le_add_right _ _))
          · exact Or.inr (Or.inl h)
          · exact Or.inr (Or.inr ⟨s, hs0, h⟩)
      · show count_tokens tk ratio (scs.getLast?.getD []) ≤ _ ∨ _ ∨ _
        cases hlast : scs.getLast? with
        | none => simp [H0]
        | some c =>
          have hcmem : c ∈ scs := List.mem_of_mem_getLast? hlast
          rcases hscsEl c hcmem with h | h | h
          · exact Or.inl (by simpa [hlast] using le_trans h (Nat.le_add_right _ _))
          · exact Or.inr (Or.inl (by simpa [hlast] using h))
          · exact Or.inr (Or.inr ⟨s, hs0, by simpa [hlast] using h⟩)
    · by_cases hover : st.curT + count_tokens tk ratio s > max_tokens
      · rw [ct_step_flush tk ratio max_tokens overlap_tokens st s hlong hover]
        set ovt := get_overlap_text tk ratio st.cur overlap_tokens with hovt
        have hovtb : count_tokens tk ratio ovt ≤ overlap_tokens := by
          rcases get_overlap_spec tk ratio st.cur overlap_tokens with h | ⟨k, _, heq, hle⟩
          · rw [hovt, h, H0]; exact Nat.zero_le _
          · rw [hovt, heq]; exact hle
        refine ih _ hl' hflush (le_refl _) (Or.inl ?_)
        calc count_tokens tk ratio (ovt ++ ' ' :: s)
            ≤ count_tokens tk ratio ovt + count_tokens tk ratio s := H2 _ _
          _ ≤ overlap_tokens + max_tokens := by
              have := Nat.not_lt.1 hlong
              omega
          _ = max_tokens + overlap_tokens := Nat.add_comm _ _
      · rw [ct_step_add tk ratio max_tokens overlap_tokens st s hlong hover]
        refine ih _ hl' h1 ?_
          (Or.inl (show st.curT + count_tokens tk ratio s ≤
            max_tokens + overlap_tokens by omega))
        show count_tokens tk ratio (if st.cur ≠ [] then st.cur ++ ' ' :: s else s) ≤
          st.curT + count_tokens tk ratio s
        by_cases hcur : st.cur ≠ []
        · rw [if_pos hcur]
          exact le_trans (H2 _ _) (Nat.add_le_add_right hc1 _)
        · rw [if_neg hcur]
          exact Nat.le_add_left _ _

/-- Claim C1 (amended): assuming the token counter is zero on the empty
string, subadditive across single-space joins, and non-increasing under
`strip()`, every chunk produced by `chunk_text` has token count at most
`maxTokens + overlapTokens`, or is a character-level last-resort slice of
at most `maxTokens * EMBEDDING_FALLBACK_TOKEN_RATIO` characters, or is a
single word of one sentence emitted verbatim (an over-budget word reaching
a nonempty running chunk is flushed whole, without the character
split). -/
theorem C1_token_bound (tk : Tokenizer) (ratio : Nat) (text : Str)
    (max_tokens overlap_tokens : Nat)
    (H0 : count_tokens tk ratio [] = 0)
    (H2 : ∀ a b, count_tokens tk ratio (a ++ ' ' :: b) ≤
      count_tokens tk ratio a + count_tokens tk ratio b)
    (H3 : ∀ s, count_tokens tk ratio (trim s) ≤ count_tokens tk ratio s) :
    ∀ c ∈ chunk_text tk ratio text max_tokens overlap_tokens,
      count_tokens tk ratio c ≤ max_tokens + overlap_tokens ∨
      c.length ≤ max_tokens * ratio ∨
      ∃ s ∈ split_into_sentences text, c ∈ words s := by
  intro c hc
  unfold chunk_text at hc
  by_cases h1 : trim text = []
  · simp [h1] at hc
  · rw [if_neg h1] at hc
    by_cases h2 : count_tokens tk ratio text ≤ max_tokens
    · rw [if_pos h2] at hc
      have : c = text := List.mem_singleton.1 hc
      subst this
      exact Or.inl (le_trans h2 (Nat.le_add_right _ _))
    · rw [if_neg h2] at hc
      have hinv := ct_fold_inv tk ratio max_tokens overlap_tokens
        (split_into_sentences text) H0 H2 H3 (split_into_sentences text)
        ⟨[], [], 0⟩ (fun s hs => hs) (by simp) (by simpa using Nat.le_of_eq H0)
        (Or.inl (Nat.zero_le _))
      exact ct_flush_prop tk ratio max_tokens overlap_tokens
        (split_into_sentences text) _ H3 hinv.1 hinv.2.1 hinv.2.2 c hc

theorem wordTok_count (ratio : Nat) (s : Str) :
    count_tokens wordTok ratio s = (words s).length := rfl

theorem wordTok_join_le (ratio : Nat) (a b : Str) :
    count_tokens wordTok ratio (a ++ ' ' :: b) ≤
      count_tokens wordTok ratio a + count_tokens wordTok ratio b := by
  rw [wordTok_count, wordTok_count, wordTok_count, words_append_space,
    List.length_append]

theorem wordTok_trim_le (ratio : Nat) (s : Str) :
    count_tokens wordTok ratio (trim s) ≤ count_tokens wordTok ratio s := by
  rw [wordTok_count, wordTok_count, words_trim]

theorem C1_token_bound_witness :
    "ccc ddd eee".toList ∈ chunk_text wordTok 4 "aaa bbb ccc. ddd eee.".toList 2 2 ∧
    (count_tokens wordTok 4 "ccc ddd eee".toList ≤ 2 + 2 ∨
      "ccc ddd eee".toList.length ≤ 2 * 4 ∨
      ∃ s ∈ split_into_sentences "aaa bbb ccc. ddd eee.".toList,
        "ccc ddd eee".toList ∈ words s) :=
  ⟨by decide,
    C1_token_bound wordTok 4 "aaa bbb ccc. ddd eee.".toList 2 2 rfl
      (wordTok_join_le 4) (wordTok_trim_le 4) "ccc ddd eee".toList (by decide)⟩

/-! ### Overlap carry-over structure (claim C6) -/

/-- A prefix whose first and last characters are not whitespace survives
`strip()` of the larger string. -/
theorem isPrefix_trim {ov cur : Str} (hpre : ov <+: cur)
    (hh : ∃ c, ov.head? = some c ∧ isWS c = false)
    (hl : ∃ c, ov.getLast? = some c ∧ isWS c = false) :
    ov <+: trim cur := by
  obtain ⟨rest, rfl⟩ := hpre
  obtain ⟨c, hc, hcws⟩ := hh
  obtain ⟨d, hd, hdws⟩ := hl
  cases ov with
  | nil => simp at hc
  | cons c0 ov' =>
    have hc0 : c0 = c := by simpa using hc
    subst hc0
    unfold trim
    rw [List.cons_append, List.dropWhile_cons, if_neg (by simp [hcws])]
    have hre : c0 :: (ov' ++ rest) = (c0 :: ov') ++ rest := by simp
    rw [hre, List.reverse_append, List.dropWhile_append]
    by_cases hemp : (rest.reverse.dropWhile isWS).isEmpty
    · rw [if_pos hemp]
      have hrev : ((c0 :: ov').reverse).head? = some d := by
        rw [List.head?_reverse]; exact hd
      obtain ⟨x, xs, hx⟩ : ∃ x xs, (c0 :: ov').reverse = x :: xs := by
        cases hrevl : (c0 :: ov').reverse with
        | nil => exact absurd (congrArg List.length hrevl) (by simp)
        | cons x xs => exact ⟨x, xs, rfl⟩
      have hxd : x = d := by rw [hx] at hrev; simpa using hrev
      rw [hx, List.dropWhile_cons, if_neg (by simp [hxd, hdws]), ← hx,
        List.reverse_reverse]
    · rw [if_neg hemp, List.reverse_append, List.reverse_reverse]
      exact List.prefix_append _ _

/-- The words of a suffix-join are words of the original string:
packaging of `get_overlap_spec` for the relation `ovRel`. -/
theorem ovRel_of_overlap {cur d : Str} {k : Nat}
    (hk : k < (words cur).length)
    (hpre : joinWords ((words cur).drop k) <+: d) :
    ovRel (trim cur) d := by
  refine ⟨k, ?_, ?_, ?_⟩
  · rwa [words_trim]
  · rw [words_trim]
    apply joinWords_ne_nil
    · intro hnil
      have := congrArg List.length hnil
      simp [List.length_drop] at this
      omega
    · intro w hw
      exact (mem_words (List.mem_of_mem_drop hw)).1
  · rwa [words_trim]

/-- The join of a nonempty suffix of a word list has non-whitespace first
and last characters. -/
theorem joinWords_drop_ends {cur : Str} {k : Nat} (hk : k < (words cur).length) :
    joinWords ((words cur).drop k) ≠ [] ∧
    (∃ c, (joinWords ((words cur).drop k)).head? = some c ∧ isWS c = false) ∧
    (∃ c, (joinWords ((words cur).drop k)).getLast? = some c ∧ isWS c = false) := by
  have hne : (words cur).drop k ≠ [] := by
    intro hnil
    have := congrArg List.length hnil
    simp [List.length_drop] at this
    omega
  have helems : ∀ w ∈ (words cur).drop k, w ≠ [] ∧ ∀ c ∈ w, isWS c = false :=
    fun w hw => mem_words (List.mem_of_mem_drop hw)
  exact ⟨joinWords_ne_nil _ hne (fun w hw => (helems w hw).1),
    joinWords_head_nonWS _ hne helems, joinWords_getLast_nonWS _ hne helems⟩

theorem cta_step_long (tk : Tokenizer) (ratio max_tokens overlap_tokens : Nat)
    (st : CTAState) (s : Str)
    (h : count_tokens tk ratio s > max_tokens) :
    cta_step tk ratio max_tokens overlap_tokens st s =
      ⟨cta_flush st ++
        ((split_long_sentence tk ratio s max_tokens).dropLast.map (fun c => (c, false))),
       ((split_long_sentence tk ratio s max_tokens).getLast?).getD [],
       count_tokens tk ratio
         (((split_long_sentence tk ratio s max_tokens).getLast?).getD []),
       false⟩ := by
  simp [cta_step, h]

theorem cta_step_flush (tk : Tokenizer) (ratio max_tokens overlap_tokens : Nat)
    (st : CTAState) (s : Str)
    (h : ¬ count_tokens tk ratio s > max_tokens)
    (h2 : st.curT + count_tokens tk ratio s > max_tokens) :
    cta_step tk ratio max_tokens overlap_tokens st s =
      ⟨cta_flush st,
       get_overlap_text tk ratio st.cur overlap_tokens ++ ' ' :: s,
       count_tokens tk ratio
         (get_overlap_text tk ratio st.cur overlap_tokens ++ ' ' :: s),
       !(get_overlap_text tk ratio st.cur overlap_tokens).isEmpty⟩ := by
  simp [cta_step, h, h2]

theorem cta_step_add (tk : Tokenizer) (ratio max_tokens overlap_tokens : Nat)
    (st : CTAState) (s : Str)
    (h : ¬ count_tokens tk ratio s > max_tokens)
    (h2 : ¬ st.curT + count_tokens tk ratio s > max_tokens) :
    cta_step tk ratio max_tokens overlap_tokens st s =
      ⟨st.chunks, if st.cur ≠ [] then st.cur ++ ' ' :: s else s,
       st.curT + count_tokens tk ratio s, st.curFlag⟩ := by
  simp [cta_step, h, h2]

/-- Projecting the instrumentation away from the annotated flush recovers
the plain flush. -/
theorem cta_flush_fst (stA : CTAState) (st : CTState)
    (hch : stA.chunks.map Prod.fst = st.chunks) (hcur : stA.cur = st.cur) :
    (cta_flush stA).map Prod.fst = ct_flush st := by
  unfold cta_flush ct_flush
  rw [← hcur, ← hch]
  by_cases h : trim stA.cur ≠ []
  · rw [if_pos h, if_pos h]
    simp
  · rw [if_neg h, if_neg h]

/-- The annotated loop computes the plain loop plus instrumentation. -/
theorem cta_fold_agree (tk : Tokenizer) (ratio max_tokens overlap_tokens : Nat) :
    ∀ (l : List Str) (stA : CTAState) (st : CTState),
      stA.chunks.map Prod.fst = st.chunks → stA.cur = st.cur → stA.curT = st.curT →
      ((l.foldl (cta_step tk ratio max_tokens overlap_tokens) stA).chunks.map Prod.fst =
        (l.foldl (ct_step tk ratio max_tokens overlap_tokens) st).chunks ∧
       (l.foldl (cta_step tk ratio max_tokens overlap_tokens) stA).cur =
        (l.foldl (ct_step tk ratio max_tokens overlap_tokens) st).cur ∧
       (l.foldl (cta_step tk ratio max_tokens overlap_tokens) stA).curT =
        (l.foldl (ct_step tk ratio max_tokens overlap_tokens) st).curT) := by
  intro l
  induction l with
  | nil => intro stA st h1 h2 h3; exact ⟨h1, h2, h3⟩
  | cons s l ih =>
    intro stA st h1 h2 h3
    rw [List.foldl_cons, List.foldl_cons]
    by_cases hlong : count_tokens tk ratio s > max_tokens
    · rw [cta_step_long tk ratio max_tokens overlap_tokens stA s hlong,
        ct_step_long tk ratio max_tokens overlap_tokens st s hlong]
      refine ih _ _ ?_ rfl rfl
      show (cta_flush stA ++ _).map Prod.fst = _
      rw [List.map_append, cta_flush_fst stA st h1 h2]
      have hid : ∀ L : List Str,
          List.map Prod.fst (List.map (fun c => (c, false)) L) = L := by
        intro L
        induction L with
        | nil => rfl
        | cons a t iht => simp only [List.map_cons, iht]
      rw [hid]
    · by_cases hover : st.curT + count_tokens tk ratio s > max_tokens
      · have hoverA : stA.curT + count_tokens tk ratio s > max_tokens := by
          rw [h3]; exact hover
        rw [cta_step_flush tk ratio max_tokens overlap_tokens stA s hlong hoverA,
          ct_step_flush tk ratio max_tokens overlap_tokens st s hlong hover]
        exact ih _ _ (cta_flush_fst stA st h1 h2) (by rw [h2]) (by rw [h2])
      · have hoverA : ¬ stA.curT + count_tokens tk ratio s > max_tokens := by
          rw [h3]; exact hover
        rw [cta_step_add tk ratio max_tokens overlap_tokens stA s hlong hoverA,
          ct_step_add tk ratio max_tokens overlap_tokens st s hlong hover]
        exact ih _ _ h1 (by rw [h2]) (by rw [h3])

/-- Chains of untagged chunks are trivial for `Rov`. -/
theorem chain_false_map (l : List Str) :
    List.Chain' Rov (l.map (fun c => (c, false))) := by
  induction l with
  | nil => simp
  | cons a l ih =>
    cases l with
    | nil => simp
    | cons b l =>
      rw [List.map_cons, List.map_cons, List.chain'_cons]
      exact ⟨fun h => absurd h (by simp), by simpa using ih⟩

theorem chain_append_one {R : Str × Bool → Str × Bool → Prop}
    {l : List (Str × Bool)} {a : Str × Bool}
    (hl : List.Chain' R l) (ha : ∀ p, l.getLast? = some p → R p a) :
    List.Chain' R (l ++ [a]) := by
  rw [List.chain'_append]
  exact ⟨hl, List.chain'_singleton a, fun x hx y hy => by
    have hya : a = y := by simpa using hy
    subst hya
    exact ha x hx⟩

/-- Flushing the running chunk preserves the `Rov` chain: a flagged
running chunk is linked to the last emitted chunk, with the overlap prefix
surviving `strip()`. -/
theorem cta_flush_chain (stA : CTAState)
    (h1 : List.Chain' Rov stA.chunks)
    (h2 : stA.curFlag = true →
      ∃ p, stA.chunks.getLast? = some p ∧ ovRel p.1 stA.cur) :
    List.Chain' Rov (cta_flush stA) := by
  unfold cta_flush
  by_cases ht : trim stA.cur ≠ []
  · rw [if_pos ht]
    refine chain_append_one h1 ?_
    intro p hp hflag
    obtain ⟨q, hq, hrel⟩ := h2 hflag
    rw [hp] at hq
    cases hq
    obtain ⟨k, hk, hne, hpre⟩ := hrel
    obtain ⟨-, hh, hl⟩ := joinWords_drop_ends hk
    exact ⟨k, hk, hne, isPrefix_trim hpre hh hl⟩
  · rw [if_neg ht]; exact h1

/-- Chain invariant of the annotated loop: the emitted list is `Rov`-linked
and a flagged running chunk carries a word-suffix of the most recently
emitted chunk as a literal prefix. -/
theorem cta_fold_chain (tk : Tokenizer) (ratio max_tokens overlap_tokens : Nat) :
    ∀ (l : List Str) (stA : CTAState),
      List.Chain' Rov stA.chunks →
      (stA.curFlag = true →
        ∃ p, stA.chunks.getLast? = some p ∧ ovRel p.1 stA.cur) →
      List.Chain' Rov
        ((l.foldl (cta_step tk ratio max_tokens overlap_tokens) stA).chunks) ∧
      ((l.foldl (cta_step tk ratio max_tokens overlap_tokens) stA).curFlag = true →
        ∃ p, (l.foldl (cta_step tk ratio max_tokens overlap_tokens) stA).chunks.getLast? =
          some p ∧
          ovRel p.1 (l.foldl (cta_step tk ratio max_tokens overlap_tokens) stA).cur) := by
  intro l
  induction l with
  | nil => intro stA h1 h2; exact ⟨h1, h2⟩
  | cons s l ih =>
    intro stA h1 h2
    rw [List.foldl_cons]
    have hflush := cta_flush_chain stA h1 h2
    by_cases hlong : count_tokens tk ratio s > max_tokens
    · rw [cta_step_long tk ratio max_tokens overlap_tokens stA s hlong]
      refine ih _ ?_ (by simp)
      show List.Chain' Rov (cta_flush stA ++ _)
      rw [List.chain'_append]
      refine ⟨hflush, chain_false_map _, ?_⟩
      intro x hx y hy hy2
      exfalso
      cases hL : (split_long_sentence tk ratio s max_tokens).dropLast with
      | nil => rw [hL] at hy; simp at hy
      | cons c0 rest0 =>
        rw [hL] at hy
        simp at hy
        subst hy
        simp at hy2
    · by_cases hover : stA.curT + count_tokens tk ratio s > max_tokens
      · rw [cta_step_flush tk ratio max_tokens overlap_tokens stA s hlong hover]
        refine ih _ hflush ?_
        intro hflag
        have hovne : get_overlap_text tk ratio stA.cur overlap_tokens ≠ [] := by
          intro h0
          rw [h0] at hflag
          simp at hflag
        rcases get_overlap_spec tk ratio stA.cur overlap_tokens with h | ⟨k, hk, heq, -⟩
        · exact absurd h hovne
        · have hwne : words stA.cur ≠ [] := by
            intro h0
            rw [h0] at hk
            simp at hk
          have htne : trim stA.cur ≠ [] := trim_ne_nil_of_words_ne_nil hwne
          have hlast : (cta_flush stA).getLast? = some (trim stA.cur, stA.curFlag) := by
            unfold cta_flush
            rw [if_pos htne]
            exact List.getLast?_concat _
          refine ⟨(trim stA.cur, stA.curFlag), hlast, ?_⟩
          show ovRel (trim stA.cur) _
          refine ovRel_of_overlap hk ?_
          rw [← heq]
          exact List.prefix_append _ _
      · rw [cta_step_add tk ratio max_tokens overlap_tokens stA s hlong hover]
        refine ih _ h1 ?_
        intro hflag
        obtain ⟨p, hp, hrel⟩ := h2 hflag
        obtain ⟨k, hk, hne, hpre⟩ := hrel
        refine ⟨p, hp, k, hk, hne, ?_⟩
        by_cases hcur : stA.cur ≠ []
        · rw [if_pos hcur]
          exact hpre.trans (List.prefix_append _ _)
        · exfalso
          have hnil : stA.cur = [] := not_not.1 hcur
          rw [hnil] at hpre
          exact hne (List.prefix_nil.1 hpre)

/-- Claim C6 (amended): the instrumented chunker agrees with `chunk_text`
chunkwise, and whenever chunk `i+1` was seeded with a nonempty overlap
window (`overlapTokens > 0` and sufficient trailing text existed), the
overlap text is the single-space join of a nonempty SUFFIX OF CHUNK `i`'s
WORD LIST — computed only from the end of the chunk being closed, never
from the upcoming sentence — and is a literal prefix of chunk `i+1`.  (A
literal character-level suffix of chunk `i` need not occur: internal
whitespace runs are re-joined with single spaces.) -/
theorem C6_overlap_word_suffix (tk : Tokenizer) (ratio : Nat) (text : Str)
    (max_tokens overlap_tokens : Nat) :
    (chunkTextAnnot tk ratio text max_tokens overlap_tokens).map Prod.fst =
      chunk_text tk ratio text max_tokens overlap_tokens ∧
    List.Chain' Rov (chunkTextAnnot tk ratio text max_tokens overlap_tokens) := by
  constructor
  · unfold chunkTextAnnot chunk_text
    by_cases h1 : trim text = []
    · simp [h1]
    · rw [if_neg h1, if_neg h1]
      by_cases h2 : count_tokens tk ratio text ≤ max_tokens
      · rw [if_pos h2, if_pos h2]
        simp
      · rw [if_neg h2, if_neg h2]
        have := cta_fold_agree tk ratio max_tokens overlap_tokens
          (split_into_sentences text) ⟨[], [], 0, false⟩ ⟨[], [], 0⟩ rfl rfl rfl
        exact cta_flush_fst _ _ this.1 this.2.1
  · unfold chunkTextAnnot
    by_cases h1 : trim text = []
    · simp [h1]
    · rw [if_neg h1]
      by_cases h2 : count_tokens tk ratio text ≤ max_tokens
      · rw [if_pos h2]
        exact List.chain'_singleton _
      · rw [if_neg h2]
        have := cta_fold_chain tk ratio max_tokens overlap_tokens
          (split_into_sentences text) ⟨[], [], 0, false⟩ (by simp) (by simp)
        exact cta_flush_chain _ this.1 this.2

end BlobCrawler
